import Mathlib

/-!
Verification of the syscall-counting tracer in `src/strace/main.go`.

The tracer launches a child under ptrace and loops: it queries the child's
registers (`syscall.PtraceGetRegs`), resolves `Orig_rax` to a name through
libseccomp (`ScmpSyscall(...).GetName()`, whose error return is discarded),
flips a `stage` string between "enter" and "exit", increments
`syscallCounter[regName]` on the "exit" branch, then resumes the child
(`PtraceSyscall`) and waits (`Wait4`), both with their errors discarded.

The embedding drives the loop with a finite list of per-iteration events:
each event is either the outcome of the `PtraceGetRegs` call together with
the (ignored) errors of that iteration's resume and wait requests, or a
register-query failure.  The external libseccomp resolver is a parameter
`getName : Nat → String × Option String`, mirroring Go's
`(name, err) := GetName()`.
-/

/-- One iteration's worth of OS responses to the trace loop of
`src/strace/main.go`: either the registers were read (`stop`, carrying
`Orig_rax` and the errors — if any — returned by the subsequent
`PtraceSyscall` and `Wait4` calls, both of which the Go code discards), or
`PtraceGetRegs` itself failed with message `msg` (`regsErr`). -/
inductive TraceEvent where
  | stop (origRax : Nat) (resumeErr : Option String) (waitErr : Option String)
  | regsErr (msg : String)
deriving DecidableEq, Repr

/-- Result of running the trace loop on a finite event list: `finished`
models `break` out of the `for` loop (the "no such process" branch),
`fatal` models `log.Fatal(err)`, and `stillRunning` means the event list
was exhausted while the loop would keep iterating (the loop itself has no
other way to stop). -/
inductive TraceResult where
  | finished (table : List (String × Nat))
  | fatal (msg : String)
  | stillRunning (stage : String) (table : List (String × Nat))
deriving DecidableEq, Repr

/-- Go's `syscallCounter[regName] += 1` on a `map[string]int`: bump the
existing entry, or insert the key with count 1 when absent. -/
def increment : List (String × Nat) → String → List (String × Nat)
  | [], name => [(name, 1)]
  | (k, v) :: rest, name =>
      if k = name then (k, v + 1) :: rest else (k, v) :: increment rest name

/-- Go map read `table[name]` with the zero default of `map[string]int`. -/
def lookupCount : List (String × Nat) → String → Nat
  | [], _ => 0
  | (k, v) :: rest, name => if k = name then v else lookupCount rest name

/-- Sum of all counts stored in the table. -/
def sumCounts : List (String × Nat) → Nat
  | [] => 0
  | (_, v) :: rest => v + sumCounts rest

/-- Fold `increment` over a list of resolved names. -/
def applyIncrements (ctr : List (String × Nat)) : List String → List (String × Nat)
  | [] => ctr
  | n :: rest => applyIncrements (increment ctr n) rest

/-- The `for` loop of `src/strace/main.go` lines 30–57, driven by the event
list.  Each `stop` event is one iteration in which `PtraceGetRegs`
succeeded: the name is resolved (`regName, _ := ... GetName()`, the error
component discarded), the `stage` string is flipped, and the counter is
incremented only on the non-"enter" branch; the resume and wait errors of
the iteration are never inspected, exactly as in the source.  A `regsErr`
event is an iteration in which `PtraceGetRegs` failed: "no such process"
breaks out of the loop, anything else is `log.Fatal`. -/
def traceLoop (getName : Nat → String × Option String) :
    List TraceEvent → String → List (String × Nat) → TraceResult
  | [], stage, ctr => .stillRunning stage ctr
  | .regsErr msg :: _, _, ctr =>
      if msg = "no such process" then .finished ctr else .fatal msg
  | .stop origRax _ _ :: rest, stage, ctr =>
      let regName := (getName origRax).1
      if stage = "enter" then
        traceLoop getName rest "exit" ctr
      else
        traceLoop getName rest "enter" (increment ctr regName)

/-- Outcome of the whole `main`: `nilPanic` is the runtime nil-pointer
panic at `pid := cmd.Process.Pid` (line 26) when `cmd.Run()` failed to
start the child and left `cmd.Process` nil — the error returned by
`cmd.Run()` on line 25 is discarded, so nothing guards the dereference.
`done` is the ">>>done" report path, `fatalLog` is `log.Fatal` inside the
loop, `running` is the event-list-exhausted artifact. -/
inductive RunOutcome where
  | nilPanic
  | fatalLog (msg : String)
  | done (table : List (String × Nat))
  | running (stage : String) (table : List (String × Nat))
deriving DecidableEq, Repr

/-- `main` of `src/strace/main.go`: `process` models `cmd.Process` after
`cmd.Run()` (line 25; `none` when the launch failed, since Go leaves
`cmd.Process` nil and the code ignores the returned error).  With a live
process the loop runs from `stage := "enter"` and the empty counter. -/
def mainRun (getName : Nat → String × Option String) (process : Option Nat)
    (events : List TraceEvent) : RunOutcome :=
  match process with
  | none => .nilPanic
  | some _pid =>
      match traceLoop getName events "enter" [] with
      | .finished t => .done t
      | .fatal m => .fatalLog m
      | .stillRunning s t => .running s t

/-- The resolved names the loop counts: the name read at each stop the
loop labels "exit" (the non-"enter" branch), in order. -/
def exitNames (getName : Nat → String × Option String) :
    List TraceEvent → String → List String
  | [], _ => []
  | .regsErr _ :: _, _ => []
  | .stop origRax _ _ :: rest, stage =>
      if stage = "enter" then
        exitNames getName rest "exit"
      else
        (getName origRax).1 :: exitNames getName rest "enter"

/-- Whether an event is a successful register read. -/
def isStop : TraceEvent → Bool
  | .stop _ _ _ => true
  | .regsErr _ => false

/-- Number of successful stops delivered before the first register-query
failure: the number of syscall-boundary stops the loop actually observes. -/
def leadingStops : List TraceEvent → Nat
  | .stop _ _ _ :: rest => leadingStops rest + 1
  | _ => 0

/-- The stage string after the loop has processed a run of stops. -/
def stageAfterList : List TraceEvent → String → String
  | [], s => s
  | .regsErr _ :: _, s => s
  | .stop _ _ _ :: rest, s =>
      stageAfterList rest (if s = "enter" then "exit" else "enter")

/-- Erase the resume/wait error components of an event (the Go code never
reads them). -/
def eraseCtlErrs : TraceEvent → TraceEvent
  | .stop origRax _ _ => .stop origRax none none
  | .regsErr msg => .regsErr msg

/-- Build stop events with no resume/wait failures from raw syscall numbers. -/
def mkStops (raxs : List Nat) : List TraceEvent :=
  raxs.map (fun r => TraceEvent.stop r none none)

/-- The table carried by a non-fatal loop result. -/
def tableOf : TraceResult → Option (List (String × Nat))
  | .finished t => some t
  | .fatal _ => none
  | .stillRunning _ t => some t

theorem lookupCount_increment (c : List (String × Nat)) (n k : String) :
    lookupCount (increment c n) k =
      lookupCount c k + (if k = n then 1 else 0) := by
  induction c with
  | nil =>
      by_cases h : k = n
      · subst h; simp [increment, lookupCount]
      · simp [increment, lookupCount, h, Ne.symm h]
  | cons kv rest ih =>
      obtain ⟨a, v⟩ := kv
      by_cases ha : a = n
      · subst ha
        by_cases hk : a = k
        · subst hk; simp [increment, lookupCount]
        · simp [increment, lookupCount, hk, Ne.symm hk]
      · by_cases hk : a = k
        · subst hk; simp [increment, lookupCount, ha]
        · simp [increment, lookupCount, ha, hk, ih]

theorem sumCounts_increment (c : List (String × Nat)) (n : String) :
    sumCounts (increment c n) = sumCounts c + 1 := by
  induction c with
  | nil => simp [increment, sumCounts]
  | cons kv rest ih =>
      obtain ⟨a, v⟩ := kv
      by_cases ha : a = n <;> simp [increment, sumCounts, ha, ih] <;> omega

theorem mem_increment (c : List (String × Nat)) (n : String) :
    ∀ kv ∈ increment c n, kv.1 ∈ c.map Prod.fst ∨ kv.1 = n := by
  induction c with
  | nil => simp [increment]
  | cons hd rest ih =>
      obtain ⟨a, v⟩ := hd
      intro kv hkv
      by_cases ha : a = n
      · subst ha
        simp only [increment, if_pos rfl] at hkv
        rcases List.mem_cons.1 hkv with h | h
        · subst h; simp
        · left
          simp only [List.map_cons, List.mem_cons]
          exact Or.inr (List.mem_map_of_mem _ h)
      · simp only [increment, if_neg ha] at hkv
        rcases List.mem_cons.1 hkv with h | h
        · subst h; simp
        · rcases ih kv h with h2 | h2
          · left
            simp only [List.map_cons, List.mem_cons]
            exact Or.inr h2
          · right; exact h2

theorem pos_increment (c : List (String × Nat)) (n : String)
    (h : ∀ kv ∈ c, 1 ≤ kv.2) : ∀ kv ∈ increment c n, 1 ≤ kv.2 := by
  induction c with
  | nil => simp [increment]
  | cons hd rest ih =>
      obtain ⟨a, v⟩ := hd
      intro kv hkv
      by_cases ha : a = n
      · simp only [increment, if_pos ha] at hkv
        rcases List.mem_cons.1 hkv with h2 | h2
        · subst h2; simp
        · exact h kv (List.mem_cons_of_mem _ h2)
      · simp only [increment, if_neg ha] at hkv
        rcases List.mem_cons.1 hkv with h2 | h2
        · subst h2; exact h (a, v) (List.mem_cons_self _ _)
        · exact ih (fun kv2 hkv2 => h kv2 (List.mem_cons_of_mem _ hkv2)) kv h2

theorem lookupCount_pos_mem (c : List (String × Nat)) (k : String)
    (h : lookupCount c k ≠ 0) : ∃ v, (k, v) ∈ c := by
  induction c with
  | nil => simp [lookupCount] at h
  | cons hd rest ih =>
      obtain ⟨a, v⟩ := hd
      by_cases ha : a = k
      · exact ⟨v, by simp [ha]⟩
      · simp [lookupCount, ha] at h
        obtain ⟨w, hw⟩ := ih h
        exact ⟨w, by simp [hw]⟩

theorem lookupCount_applyIncrements (l : List String) :
    ∀ (c : List (String × Nat)) (k : String),
      lookupCount (applyIncrements c l) k = lookupCount c k + l.count k := by
  induction l with
  | nil => intro c k; simp [applyIncrements]
  | cons n rest ih =>
      intro c k
      simp only [applyIncrements]
      rw [ih, lookupCount_increment, List.count_cons]
      by_cases h : k = n
      · subst h
        simp only [beq_self_eq_true, if_pos rfl, if_true]
        omega
      · have hbeq : (n == k) = false := beq_eq_false_iff_ne.2 (Ne.symm h)
        simp [h, hbeq]

theorem sumCounts_applyIncrements (l : List String) :
    ∀ c : List (String × Nat),
      sumCounts (applyIncrements c l) = sumCounts c + l.length := by
  induction l with
  | nil => intro c; simp [applyIncrements]
  | cons n rest ih =>
      intro c
      simp only [applyIncrements, List.length_cons]
      rw [ih, sumCounts_increment]
      omega

theorem mem_applyIncrements (l : List String) :
    ∀ (c : List (String × Nat)), ∀ kv ∈ applyIncrements c l,
      kv.1 ∈ c.map Prod.fst ∨ kv.1 ∈ l := by
  induction l with
  | nil => intro c kv h; simp [applyIncrements] at h; simp [List.mem_map]; tauto
  | cons n rest ih =>
      intro c kv h
      rcases ih (increment c n) kv h with h2 | h2
      · have := mem_increment c n ⟨kv.1, 1⟩
        simp at this
        rcases List.mem_map.1 h2 with ⟨kv2, hkv2, hfst⟩
        have h3 := mem_increment c n kv2 hkv2
        rw [hfst] at h3
        rcases h3 with h3 | h3
        · left; exact h3
        · right; simp [h3]
      · right; simp [h2]

theorem pos_applyIncrements (l : List String) :
    ∀ c : List (String × Nat), (∀ kv ∈ c, 1 ≤ kv.2) →
      ∀ kv ∈ applyIncrements c l, 1 ≤ kv.2 := by
  induction l with
  | nil => intro c h kv hkv; simp [applyIncrements] at hkv; exact h kv hkv
  | cons n rest ih =>
      intro c h kv hkv
      exact ih (increment c n) (pos_increment c n h) kv hkv

theorem traceLoop_tableOf (getName : Nat → String × Option String) :
    ∀ (events : List TraceEvent) (s : String) (c t : List (String × Nat)),
      tableOf (traceLoop getName events s c) = some t →
      t = applyIncrements c (exitNames getName events s) := by
  intro events
  induction events with
  | nil =>
      intro s c t h
      simp [traceLoop, tableOf] at h
      simp [exitNames, applyIncrements, h]
  | cons e rest ih =>
      intro s c t h
      cases e with
      | regsErr msg =>
          by_cases hm : msg = "no such process"
          · simp [traceLoop, hm, tableOf] at h
            simp [exitNames, applyIncrements, h]
          · simp [traceLoop, hm, tableOf] at h
      | stop rax r w =>
          by_cases hs : s = "enter"
          · simp only [traceLoop, if_pos hs] at h
            rw [ih _ _ _ h]
            simp [exitNames, hs]
          · simp only [traceLoop, if_neg hs] at h
            rw [ih _ _ _ h]
            simp [exitNames, hs, applyIncrements]

theorem traceLoop_append (getName : Nat → String × Option String) :
    ∀ (l1 : List TraceEvent), l1.all isStop = true →
      ∀ (l2 : List TraceEvent) (s : String) (c : List (String × Nat)),
        traceLoop getName (l1 ++ l2) s c =
          traceLoop getName l2 (stageAfterList l1 s)
            (applyIncrements c (exitNames getName l1 s)) := by
  intro l1
  induction l1 with
  | nil => intro _ l2 s c; simp [stageAfterList, exitNames, applyIncrements]
  | cons e rest ih =>
      intro hall l2 s c
      cases e with
      | regsErr msg => simp [List.all_cons, isStop] at hall
      | stop rax r w =>
          have hrest : rest.all isStop = true := by
            simp only [List.all_cons, Bool.and_eq_true] at hall
            exact hall.2
          by_cases hs : s = "enter"
          · simp only [List.cons_append, traceLoop, if_pos hs, List.append_eq]
            rw [ih hrest]
            simp [stageAfterList, exitNames, hs]
          · simp only [List.cons_append, traceLoop, if_neg hs, List.append_eq]
            rw [ih hrest]
            simp [stageAfterList, exitNames, applyIncrements, hs]

theorem exitNames_append (getName : Nat → String × Option String) :
    ∀ (l1 : List TraceEvent), l1.all isStop = true →
      ∀ (l2 : List TraceEvent) (s : String),
        exitNames getName (l1 ++ l2) s =
          exitNames getName l1 s ++
            exitNames getName l2 (stageAfterList l1 s) := by
  intro l1
  induction l1 with
  | nil => intro _ l2 s; simp [stageAfterList, exitNames]
  | cons e rest ih =>
      intro hall l2 s
      cases e with
      | regsErr msg => simp [List.all_cons, isStop] at hall
      | stop rax r w =>
          have hrest : rest.all isStop = true := by
            simp only [List.all_cons, Bool.and_eq_true] at hall
            exact hall.2
          by_cases hs : s = "enter"
          · simp only [List.cons_append, exitNames, if_pos hs, List.append_eq]
            rw [ih hrest]
            simp [stageAfterList, hs]
          · simp only [List.cons_append, exitNames, if_neg hs, List.append_eq]
            rw [ih hrest]
            simp [stageAfterList, hs]

theorem stageAfterList_parity :
    ∀ l : List TraceEvent, l.all isStop = true →
      (stageAfterList l "enter" =
        if l.length % 2 = 0 then "enter" else "exit") ∧
      (stageAfterList l "exit" =
        if l.length % 2 = 0 then "exit" else "enter") := by
  intro l
  induction l with
  | nil => intro _; simp [stageAfterList]
  | cons e rest ih =>
      intro hall
      cases e with
      | regsErr msg => simp [List.all_cons, isStop] at hall
      | stop rax r w =>
          have hrest : rest.all isStop = true := by
            simp only [List.all_cons, Bool.and_eq_true] at hall
            exact hall.2
          obtain ⟨h1, h2⟩ := ih hrest
          rcases Nat.mod_two_eq_zero_or_one rest.length with h | h
          · have h3 : (rest.length + 1) % 2 = 1 := by omega
            constructor
            · simp [stageAfterList, h2, h, h3]
            · simp [stageAfterList, h1, h, h3]
          · have h3 : (rest.length + 1) % 2 = 0 := by omega
            constructor
            · simp [stageAfterList, h2, h, h3]
            · simp [stageAfterList, h1, h, h3]

theorem exitNames_length (getName : Nat → String × Option String) :
    ∀ events : List TraceEvent,
      (exitNames getName events "enter").length =
        leadingStops events / 2 ∧
      (exitNames getName events "exit").length =
        (leadingStops events + 1) / 2 := by
  intro events
  induction events with
  | nil => simp [exitNames, leadingStops]
  | cons e rest ih =>
      cases e with
      | regsErr msg => simp [exitNames, leadingStops]
      | stop rax r w =>
          obtain ⟨h1, h2⟩ := ih
          constructor
          · simpa [exitNames, leadingStops] using h2
          · simp only [exitNames, leadingStops]
            simp only [if_neg (by decide : ¬("exit" : String) = "enter")]
            simp [h1]
            omega

theorem traceLoop_allStops (getName : Nat → String × Option String)
    (l : List TraceEvent) (h : l.all isStop = true)
    (s : String) (c : List (String × Nat)) :
    traceLoop getName l s c =
      .stillRunning (stageAfterList l s)
        (applyIncrements c (exitNames getName l s)) := by
  have h2 := traceLoop_append getName l h [] s c
  simpa [traceLoop] using h2

/-- C1: for every trace the loop ends normally (no ControlFailure), the sum
of all counts in the final frequency table equals the number of syscalls
the tracee completed — one increment per completed syscall, fired at the
Exit stop and never at the Enter stop, so the total is the number of
observed stops divided by two (an in-flight Enter with no Exit is not
counted). -/
theorem syscall_count_sum (getName : Nat → String × Option String)
    (events : List TraceEvent) (t : List (String × Nat))
    (h : traceLoop getName events "enter" [] = TraceResult.finished t) :
    sumCounts t = leadingStops events / 2 := by
  have ht : tableOf (traceLoop getName events "enter" []) = some t := by
    rw [h]; rfl
  have h2 := traceLoop_tableOf getName events "enter" [] t ht
  rw [h2, sumCounts_applyIncrements]
  simp [sumCounts, (exitNames_length getName events).1]

theorem syscall_count_sum_witness :
    sumCounts [("read", 1)] =
      leadingStops [TraceEvent.stop 0 none none, TraceEvent.stop 0 none none,
        TraceEvent.regsErr "no such process"] / 2 :=
  syscall_count_sum (fun _ => ("read", none)) _ _ rfl

/-- C2: starting from stage "enter", the loop labels its stops strictly
alternately Enter, Exit, Enter, Exit, …: after any run of k stops the
stage is "enter" exactly when k is even, and appending one more stop flips
the stage while mutating the table only when the consumed stop was
Exit-labeled (stage not "enter"), never when it was Enter-labeled. -/
theorem stage_alternation (getName : Nat → String × Option String)
    (events : List TraceEvent) (h : events.all isStop = true) :
    traceLoop getName events "enter" [] =
      TraceResult.stillRunning
        (if events.length % 2 = 0 then "enter" else "exit")
        (applyIncrements [] (exitNames getName events "enter")) ∧
    ∀ (rax : Nat) (r w : Option String),
      traceLoop getName (events ++ [TraceEvent.stop rax r w]) "enter" [] =
        TraceResult.stillRunning
          (if (events.length + 1) % 2 = 0 then "enter" else "exit")
          (if events.length % 2 = 0 then
            applyIncrements [] (exitNames getName events "enter")
          else
            increment (applyIncrements [] (exitNames getName events "enter"))
              (getName rax).1) := by
  have hpar := (stageAfterList_parity events h).1
  constructor
  · rw [traceLoop_allStops getName events h, hpar]
  · intro rax r w
    rw [traceLoop_append getName events h [TraceEvent.stop rax r w] "enter" [],
      hpar]
    rcases Nat.mod_two_eq_zero_or_one events.length with hm | hm
    · have hm2 : (events.length + 1) % 2 = 1 := by omega
      simp [hm, hm2, traceLoop]
    · have hm2 : (events.length + 1) % 2 = 0 := by omega
      simp [hm, hm2, traceLoop]

theorem stage_alternation_witness :
    traceLoop (fun _ => ("sys", (none : Option String)))
        [TraceEvent.stop 3 none none] "enter" [] =
      TraceResult.stillRunning "exit" [] :=
  (stage_alternation (fun _ => ("sys", none))
    [TraceEvent.stop 3 none none] (by decide)).1

/-- C3: at any iteration, a register-state query failing with "no such
process" ends the loop normally (`finished`, not an error); any other
query failure aborts fatally, surfacing the message; and a successful
query lets the loop continue with the next iteration. -/
theorem regs_query_classification (getName : Nat → String × Option String)
    (msg : String) (rest : List TraceEvent) (stage : String)
    (ctr : List (String × Nat)) :
    traceLoop getName (TraceEvent.regsErr msg :: rest) stage ctr =
      (if msg = "no such process" then TraceResult.finished ctr
       else TraceResult.fatal msg) ∧
    ∀ (rax : Nat) (r w : Option String),
      traceLoop getName (TraceEvent.stop rax r w :: rest) stage ctr =
        traceLoop getName rest
          (if stage = "enter" then "exit" else "enter")
          (if stage = "enter" then ctr else increment ctr (getName rax).1) := by
  constructor
  · rfl
  · intro rax r w
    by_cases hs : stage = "enter" <;> simp [traceLoop, hs]

/-- C4: a syscall number the resolver cannot map (its lookup reports an
error) never fails the trace: the error component is discarded, the
unrecognized syscall consumes one full Enter/Exit pair of stops, the loop
continues, and the syscall is counted under the resolver's fallback name. -/
theorem unknown_syscall_counted (getName : Nat → String × Option String)
    (n : Nat) (e : String) (r1 w1 r2 w2 : Option String)
    (rest : List TraceEvent) (ctr : List (String × Nat))
    (h : (getName n).2 = some e) :
    traceLoop getName
        (TraceEvent.stop n r1 w1 :: TraceEvent.stop n r2 w2 :: rest)
        "enter" ctr =
      traceLoop getName rest "enter" (increment ctr (getName n).1) ∧
    lookupCount (increment ctr (getName n).1) (getName n).1 =
      lookupCount ctr (getName n).1 + 1 := by
  constructor
  · simp [traceLoop]
  · rw [lookupCount_increment]; simp

theorem unknown_syscall_counted_witness :
    traceLoop (fun _ => ("", some "unknown syscall"))
        [TraceEvent.stop 999 none none, TraceEvent.stop 999 none none]
        "enter" [] =
      traceLoop (fun _ => ("", some "unknown syscall")) [] "enter"
        (increment [] "") ∧
    lookupCount (increment [] "") "" = lookupCount [] "" + 1 :=
  unknown_syscall_counted (fun _ => ("", some "unknown syscall")) 999
    "unknown syscall" none none none none [] [] rfl

/-- C5: when the launch fails, `cmd.Run()`'s error is discarded and
`cmd.Process` is nil, so `main` crashes with a runtime nil-pointer panic
at `pid := cmd.Process.Pid` before the trace loop is ever entered — a
non-zero exit, but not the clean LaunchFailure message the spec intends. -/
theorem launch_failure_panics (getName : Nat → String × Option String)
    (events : List TraceEvent) :
    mainRun getName none events = RunOutcome.nilPanic := rfl

/-- C6 counterexample: a resume request fails with "operation not
permitted" (not "no such process") at the first stop, yet the loop
continues to its next iteration — it consumes the following event and
terminates normally with `finished`, and no outcome ever reports the
resume failure as fatal. -/
theorem resume_failure_not_fatal :
    traceLoop (fun _ => ("read", none))
        [TraceEvent.stop 0 (some "operation not permitted") none,
         TraceEvent.regsErr "no such process"] "enter" [] =
      TraceResult.finished [] ∧
    ∀ m : String,
      traceLoop (fun _ => ("read", none))
          [TraceEvent.stop 0 (some "operation not permitted") none,
           TraceEvent.regsErr "no such process"] "enter" [] ≠
        TraceResult.fatal m := by
  constructor
  · rfl
  · intro m hm
    have h2 : TraceResult.finished ([] : List (String × Nat)) =
        TraceResult.fatal m := hm
    exact TraceResult.noConfusion h2

/-- C6 amended: the loop never inspects the results of the resume request
or of the wait — erasing those error components changes nothing — and a
stop whose resume and wait both failed is processed like any other stop,
with the loop continuing to the next iteration; only register-state query
failures are classified and can end or abort the trace. -/
theorem resume_wait_errors_ignored (getName : Nat → String × Option String)
    (events : List TraceEvent) (stage : String) (ctr : List (String × Nat)) :
    traceLoop getName (events.map eraseCtlErrs) stage ctr =
      traceLoop getName events stage ctr ∧
    ∀ (rax : Nat) (e1 e2 : String) (rest : List TraceEvent),
      traceLoop getName (TraceEvent.stop rax (some e1) (some e2) :: rest)
          stage ctr =
        traceLoop getName rest
          (if stage = "enter" then "exit" else "enter")
          (if stage = "enter" then ctr else increment ctr (getName rax).1) := by
  constructor
  · induction events generalizing stage ctr with
    | nil => rfl
    | cons e rest ih =>
        cases e with
        | regsErr msg => rfl
        | stop rax r w =>
            by_cases hs : stage = "enter" <;>
              simp [eraseCtlErrs, traceLoop, hs, ih]
  · intro rax e1 e2 rest
    by_cases hs : stage = "enter" <;> simp [traceLoop, hs]

/-- C7: if the tracee dies after a syscall's Enter stop but before its
Exit stop is observed — the next register query reports "no such
process" — the loop ends normally and the in-flight syscall is never
tallied: the final table is exactly the one accumulated from the
completed pairs, the same as if the dangling Enter had never happened. -/
theorem enter_without_exit_not_tallied (getName : Nat → String × Option String)
    (raxs : List Nat) (n : Nat) (r w : Option String)
    (h : raxs.length % 2 = 0) :
    traceLoop getName
        (mkStops raxs ++ [TraceEvent.stop n r w,
          TraceEvent.regsErr "no such process"]) "enter" [] =
      TraceResult.finished
        (applyIncrements [] (exitNames getName (mkStops raxs) "enter")) ∧
    traceLoop getName
        (mkStops raxs ++ [TraceEvent.stop n r w,
          TraceEvent.regsErr "no such process"]) "enter" [] =
      traceLoop getName
        (mkStops raxs ++ [TraceEvent.regsErr "no such process"])
        "enter" [] := by
  have hstops : (mkStops raxs).all isStop = true := by
    simp [mkStops, List.all_map, isStop, Function.comp]
  have hpar := (stageAfterList_parity (mkStops raxs) hstops).1
  have hlen : (mkStops raxs).length = raxs.length := by simp [mkStops]
  have hstage : stageAfterList (mkStops raxs) "enter" = "enter" := by
    rw [hpar, hlen]; simp [h]
  constructor
  · rw [traceLoop_append getName _ hstops, hstage]
    simp [traceLoop]
  · rw [traceLoop_append getName _ hstops, hstage,
      traceLoop_append getName _ hstops, hstage]
    simp [traceLoop]

theorem enter_without_exit_not_tallied_witness :
    traceLoop (fun _ => ("write", (none : Option String)))
        (mkStops [1, 1] ++ [TraceEvent.stop 2 none none,
          TraceEvent.regsErr "no such process"]) "enter" [] =
      TraceResult.finished
        (applyIncrements []
          (exitNames (fun _ => ("write", none)) (mkStops [1, 1]) "enter")) ∧
    traceLoop (fun _ => ("write", (none : Option String)))
        (mkStops [1, 1] ++ [TraceEvent.stop 2 none none,
          TraceEvent.regsErr "no such process"]) "enter" [] =
      traceLoop (fun _ => ("write", none))
        (mkStops [1, 1] ++ [TraceEvent.regsErr "no such process"])
        "enter" [] :=
  enter_without_exit_not_tallied (fun _ => ("write", none)) [1, 1] 2
    none none rfl

/-- C8: any trace that ends normally after completing syscall A exactly
three times and syscall B exactly once (and nothing else) yields the
final table with entry A mapped to 3, entry B mapped to 1, and no other
entries. -/
theorem table_exact_A3_B1 (getName : Nat → String × Option String)
    (events : List TraceEvent) (t : List (String × Nat)) (A B : String)
    (hAB : A ≠ B)
    (h : traceLoop getName events "enter" [] = TraceResult.finished t)
    (hA : (exitNames getName events "enter").count A = 3)
    (hB : (exitNames getName events "enter").count B = 1)
    (honly : ∀ k ∈ exitNames getName events "enter", k = A ∨ k = B) :
    lookupCount t A = 3 ∧ lookupCount t B = 1 ∧
      ∀ kv ∈ t, kv.1 = A ∨ kv.1 = B := by
  have ht : tableOf (traceLoop getName events "enter" []) = some t := by
    rw [h]; rfl
  have h2 := traceLoop_tableOf getName events "enter" [] t ht
  subst h2
  refine ⟨?_, ?_, ?_⟩
  · rw [lookupCount_applyIncrements]
    simp [lookupCount, hA]
  · rw [lookupCount_applyIncrements]
    simp [lookupCount, hB]
  · intro kv hkv
    rcases mem_applyIncrements _ [] kv hkv with h3 | h3
    · simp at h3
    · exact honly kv.1 h3

theorem table_exact_A3_B1_witness :
    lookupCount [("read", 3), ("write", 1)] "read" = 3 ∧
    lookupCount [("read", 3), ("write", 1)] "write" = 1 ∧
    ∀ kv ∈ [("read", 3), ("write", 1)], kv.1 = "read" ∨ kv.1 = "write" :=
  table_exact_A3_B1 (fun n => (if n = 0 then "read" else "write", none))
    (mkStops [0, 0, 0, 0, 0, 0, 5, 5] ++ [TraceEvent.regsErr "no such process"])
    [("read", 3), ("write", 1)] "read" "write" (by decide) (by decide)
    (by decide) (by decide) (by decide)

/-- C9: at every reachable point of the loop — mid-trace or after normal
termination — every entry present in the table has count at least 1, and
a name is a key of the table exactly when at least one Exit-observed
syscall resolved to it: no zero-count entries ever exist. -/
theorem table_entries_positive (getName : Nat → String × Option String)
    (events : List TraceEvent) (s : String) (t : List (String × Nat))
    (h : traceLoop getName events "enter" [] = TraceResult.finished t ∨
         traceLoop getName events "enter" [] = TraceResult.stillRunning s t) :
    (∀ kv ∈ t, 1 ≤ kv.2) ∧
    (∀ k : String, (∃ v, (k, v) ∈ t) ↔
        k ∈ exitNames getName events "enter") := by
  have ht : tableOf (traceLoop getName events "enter" []) = some t := by
    rcases h with h | h <;> rw [h] <;> rfl
  have h2 := traceLoop_tableOf getName events "enter" [] t ht
  subst h2
  constructor
  · exact pos_applyIncrements _ [] (by simp)
  · intro k
    constructor
    · rintro ⟨v, hv⟩
      rcases mem_applyIncrements _ [] (k, v) hv with h3 | h3
      · simp at h3
      · exact h3
    · intro hk
      apply lookupCount_pos_mem
      rw [lookupCount_applyIncrements]
      have hc : (exitNames getName events "enter").count k ≠ 0 :=
        fun h0 => (List.count_eq_zero.1 h0) hk
      simp only [lookupCount]
      omega

theorem table_entries_positive_witness :
    (∀ kv ∈ [("read", 1)], 1 ≤ kv.2) ∧
    (∀ k : String, (∃ v, (k, v) ∈ [("read", 1)]) ↔
        k ∈ exitNames (fun _ => ("read", (none : Option String)))
          [TraceEvent.stop 0 none none, TraceEvent.stop 0 none none]
          "enter") :=
  table_entries_positive (fun _ => ("read", none))
    [TraceEvent.stop 0 none none, TraceEvent.stop 0 none none] "enter"
    [("read", 1)] (Or.inr rfl)

/-- C10: two distinct syscall numbers the resolver cannot name are both
counted under one and the same fallback key — the resolver's error is
discarded and the returned name string (empty for unresolved numbers) is
used directly — so after completing one call of each the shared key has
gained 2 and the report cannot tell the two numbers apart. -/
theorem unresolved_numbers_share_key (getName : Nat → String × Option String)
    (n1 n2 : Nat) (e1 e2 : String) (rest : List TraceEvent)
    (ctr : List (String × Nat))
    (hne : n1 ≠ n2)
    (h1 : getName n1 = ("", some e1))
    (h2 : getName n2 = ("", some e2)) :
    traceLoop getName
        (TraceEvent.stop n1 none none :: TraceEvent.stop n1 none none ::
          TraceEvent.stop n2 none none :: TraceEvent.stop n2 none none ::
          rest) "enter" ctr =
      traceLoop getName rest "enter" (increment (increment ctr "") "") ∧
    lookupCount (increment (increment ctr "") "") "" =
      lookupCount ctr "" + 2 := by
  constructor
  · simp [traceLoop, h1, h2]
  · rw [lookupCount_increment, lookupCount_increment]
    simp

theorem unresolved_numbers_share_key_witness :
    traceLoop (fun _ => ("", some "unknown"))
        [TraceEvent.stop 998 none none, TraceEvent.stop 998 none none,
         TraceEvent.stop 999 none none, TraceEvent.stop 999 none none]
        "enter" [] =
      traceLoop (fun _ => ("", some "unknown")) [] "enter"
        (increment (increment [] "") "") ∧
    lookupCount (increment (increment [] "") "") "" = lookupCount [] "" + 2 :=
  unresolved_numbers_share_key (fun _ => ("", some "unknown")) 998 999
    "unknown" "unknown" [] [] (by decide) rfl rfl
